import Mathlib

/-!
Verification of the DOC2MD document-conversion pipeline.

Shallow embedding of the core pure functions of the repository:
  - `src/src/docx_parser.py`  : text deduplication (`_dedup_text`,
    `_dedup_sentence`), table serialization (`_table_to_markdown`),
    merging of adjacent text elements (tail of `parse_docx`), and the
    error-checking prelude of `parse_docx`.
  - `src/src/ai_processor.py` : text chunking (`_split_text_chunks`),
    output cleaning (`_clean_output`), per-image processing
    (`_process_image`), position-hint extraction and final assembly
    (`process_with_ai`).

Strings are modelled as `List Char` (Python `str` is a sequence of
characters; all operations used by the source are character-wise).
External effects (the OpenAI network call, the filesystem, the docx
container opener) are modelled as explicit oracle inputs.
-/

namespace DocMD

/-! ## Python string primitives used by the source -/

/-- Python `str.lstrip()` restricted to the whitespace alphabet. -/
def pyLstrip (s : List Char) : List Char :=
  s.dropWhile Char.isWhitespace

/-- Python `str.rstrip()`: remove trailing whitespace. -/
def pyRstrip (s : List Char) : List Char :=
  (s.reverse.dropWhile Char.isWhitespace).reverse

/-- Python `str.strip()`: remove leading and trailing whitespace. -/
def pyStrip (s : List Char) : List Char :=
  pyRstrip (pyLstrip s)

/-- Python `str.lower()` (character-wise). -/
def lowerL (s : List Char) : List Char :=
  s.map Char.toLower

/-- Python `pat in s` (substring containment). -/
def containsSub (pat : List Char) : List Char → Bool
  | [] => pat.isPrefixOf []
  | c :: cs => pat.isPrefixOf (c :: cs) || containsSub pat cs

/-- Fuel-driven worker for `replaceAll`; the fuel is the length of the
remaining input, which bounds the number of steps. -/
def replaceAllGo (pat rep : List Char) : Nat → List Char → List Char
  | _, [] => []
  | 0, s => s
  | fuel + 1, c :: cs =>
    if pat ≠ [] ∧ pat.isPrefixOf (c :: cs) then
      rep ++ replaceAllGo pat rep fuel ((c :: cs).drop pat.length)
    else
      c :: replaceAllGo pat rep fuel cs

/-- Python `s.replace(pat, rep)`: replace every (left-to-right,
non-overlapping) occurrence.  Every call site in the source passes a
non-empty pattern. -/
def replaceAll (pat rep s : List Char) : List Char :=
  replaceAllGo pat rep s.length s

/-- Python `text.split("\n")` (note: `"".split("\n") == [""]`). -/
def splitLines : List Char → List (List Char)
  | [] => [[]]
  | c :: cs =>
    match splitLines cs with
    | [] => [[c]]
    | l :: ls => if c = Char.ofNat 10 then [] :: l :: ls else (c :: l) :: ls

/-- Python `"\n".join(lines)`. -/
def joinLines (lines : List (List Char)) : List Char :=
  List.intercalate [Char.ofNat 10] lines

/-! ## `_split_text_chunks` (src/src/ai_processor.py, lines 100-117)

Text elements are represented by their `content` strings, the only
field the chunker consults. -/

/-- `_MAX_TEXT_CHARS_PER_CHUNK` (src/src/ai_processor.py, line 31). -/
def MAX_TEXT_CHARS_PER_CHUNK : Nat := 6000

/-- One iteration of the `for elem in text_elements` loop of
`_split_text_chunks`.  State: finished chunks, current chunk,
current length. -/
def chunkStep (maxChars : Nat) (st : List (List (List Char)) × List (List Char) × Nat)
    (elem : List Char) : List (List (List Char)) × List (List Char) × Nat :=
  let chunks := st.1
  let currentChunk := st.2.1
  let currentLen := st.2.2
  if currentChunk ≠ [] ∧ currentLen + elem.length > maxChars then
    (chunks ++ [currentChunk], [elem], elem.length)
  else
    (chunks, currentChunk ++ [elem], currentLen + elem.length)

/-- `_split_text_chunks`, parametrised by the chunk-size bound (the
source instantiates it with `MAX_TEXT_CHARS_PER_CHUNK = 6000`). -/
def splitTextChunks (maxChars : Nat) (textElements : List (List Char)) :
    List (List (List Char)) :=
  let st := textElements.foldl (chunkStep maxChars) ([], [], 0)
  if st.2.1 ≠ [] then st.1 ++ [st.2.1] else st.1

/-- Total character length of a chunk. -/
def sumLen (chunk : List (List Char)) : Nat :=
  (chunk.map List.length).sum

/-! ### Invariant of the chunking fold -/

/-- A chunk is well formed for `maxChars` when it is non-empty and
either fits in the bound or consists of a single element. -/
def GoodChunk (maxChars : Nat) (chunk : List (List Char)) : Prop :=
  chunk ≠ [] ∧ (sumLen chunk ≤ maxChars ∨ chunk.length = 1)

lemma sumLen_append (a b : List (List Char)) :
    sumLen (a ++ b) = sumLen a + sumLen b := by
  simp [sumLen]

lemma sumLen_single (e : List Char) : sumLen [e] = e.length := by
  simp [sumLen]

lemma chunkFold_spec (maxChars : Nat) :
    ∀ (l : List (List Char)) (chunks : List (List (List Char)))
      (current : List (List Char)),
      (∀ c ∈ chunks, GoodChunk maxChars c) →
      (current ≠ [] → sumLen current ≤ maxChars ∨ current.length = 1) →
      (∀ c ∈ (List.foldl (chunkStep maxChars) (chunks, current, sumLen current) l).1,
          GoodChunk maxChars c) ∧
      ((List.foldl (chunkStep maxChars) (chunks, current, sumLen current) l).2.1 ≠ [] →
          sumLen (List.foldl (chunkStep maxChars) (chunks, current, sumLen current) l).2.1 ≤ maxChars ∨
          (List.foldl (chunkStep maxChars) (chunks, current, sumLen current) l).2.1.length = 1) ∧
      (List.foldl (chunkStep maxChars) (chunks, current, sumLen current) l).2.2 =
          sumLen (List.foldl (chunkStep maxChars) (chunks, current, sumLen current) l).2.1 ∧
      ((List.foldl (chunkStep maxChars) (chunks, current, sumLen current) l).1.flatten ++
          (List.foldl (chunkStep maxChars) (chunks, current, sumLen current) l).2.1 =
        chunks.flatten ++ current ++ l) := by
  intro l
  induction l with
  | nil =>
    intro chunks current hchunks hcur
    refine ⟨hchunks, hcur, rfl, by simp⟩
  | cons e es ih =>
    intro chunks current hchunks hcur
    by_cases hover : current ≠ [] ∧ sumLen current + e.length > maxChars
    · have hstep : chunkStep maxChars (chunks, current, sumLen current) e =
          (chunks ++ [current], [e], e.length) := by
        simp only [chunkStep, if_pos hover]
    -- after the flush the new current is `[e]` with length `e.length`
      have hlen : e.length = sumLen [e] := (sumLen_single e).symm
      have hchunks' : ∀ c ∈ chunks ++ [current], GoodChunk maxChars c := by
        intro c hc
        rcases List.mem_append.mp hc with h | h
        · exact hchunks c h
        · rcases List.mem_singleton.mp h with rfl
          exact ⟨hover.1, hcur hover.1⟩
      have := ih (chunks ++ [current]) [e] hchunks' (by intro _; right; rfl)
      rw [← sumLen_single e] at hstep
      simp only [List.foldl_cons, hstep]
      refine ⟨this.1, this.2.1, this.2.2.1, ?_⟩
      rw [this.2.2.2]
      simp
    · have hstep : chunkStep maxChars (chunks, current, sumLen current) e =
          (chunks, current ++ [e], sumLen (current ++ [e])) := by
        simp only [chunkStep, if_neg hover, sumLen_append, sumLen_single]
      have hcur' : current ++ [e] ≠ [] → sumLen (current ++ [e]) ≤ maxChars ∨
          (current ++ [e]).length = 1 := by
        intro _
        by_cases hc : current = []
        · subst hc; right; rfl
        · left
          have : ¬ sumLen current + e.length > maxChars := by
            intro h; exact hover ⟨hc, h⟩
          rw [sumLen_append, sumLen_single]
          omega
      have := ih chunks (current ++ [e]) hchunks hcur'
      simp only [List.foldl_cons, hstep]
      refine ⟨this.1, this.2.1, this.2.2.1, ?_⟩
      rw [this.2.2.2]
      simp

/-- C1 -- Chunk size bound: with a positive `max_chars`, every chunk
produced by `_split_text_chunks` either has total content length at
most `max_chars` or consists of exactly one element; consequently an
element longer than `max_chars` always sits alone in its chunk (and,
by C2's coverage theorem, elements are never split). -/
theorem splitTextChunks_size_bound (maxChars : Nat) (hpos : 0 < maxChars)
    (texts : List (List Char)) :
    (∀ chunk ∈ splitTextChunks maxChars texts,
        sumLen chunk ≤ maxChars ∨ chunk.length = 1) ∧
    (∀ chunk ∈ splitTextChunks maxChars texts, ∀ e ∈ chunk,
        maxChars < e.length → chunk = [e]) := by
  have base := chunkFold_spec maxChars texts [] [] (by simp) (by simp [sumLen])
  have hmain : ∀ chunk ∈ splitTextChunks maxChars texts,
      sumLen chunk ≤ maxChars ∨ chunk.length = 1 := by
    intro chunk hchunk
    have hsum : sumLen [] = 0 := rfl
    rw [splitTextChunks] at hchunk
    rw [← hsum] at hchunk
    split at hchunk
    · rcases List.mem_append.mp hchunk with h | h
      · exact (base.1 chunk h).2
      · rcases List.mem_singleton.mp h with rfl
        exact base.2.1 (by assumption)
    · exact (base.1 chunk hchunk).2
  refine ⟨hmain, ?_⟩
  intro chunk hchunk e he hbig
  rcases hmain chunk hchunk with hle | hone
  · exfalso
    have : e.length ≤ sumLen chunk := by
      rcases List.mem_iff_append.mp he with ⟨a, b, rfl⟩
      rw [show a ++ e :: b = a ++ [e] ++ b by simp, sumLen_append, sumLen_append,
        sumLen_single]
      omega
    omega
  · rcases List.length_eq_one.mp hone with ⟨x, rfl⟩
    rcases List.mem_singleton.mp he with rfl
    rfl

/-- Witness for C1 at `max_chars = 4` on the concrete input
`["ab", "cd", "e"]`, whose first chunk is `["ab", "cd"]`. -/
theorem splitTextChunks_size_bound_witness :
    0 < 4 ∧
      (sumLen [['a', 'b'], ['c', 'd']] ≤ 4 ∨ [['a', 'b'], ['c', 'd']].length = 1) :=
  ⟨by decide,
    (splitTextChunks_size_bound 4 (by decide) [['a', 'b'], ['c', 'd'], ['e']]).1
      [['a', 'b'], ['c', 'd']] (by decide)⟩

/-- C2 -- Chunk coverage: concatenating the chunks of
`_split_text_chunks` in order reproduces the original text-element
sequence exactly (no loss, duplication or reordering), and every chunk
is non-empty. -/
theorem splitTextChunks_coverage (maxChars : Nat) (texts : List (List Char)) :
    (splitTextChunks maxChars texts).flatten = texts ∧
    ∀ chunk ∈ splitTextChunks maxChars texts, chunk ≠ [] := by
  have base := chunkFold_spec maxChars texts [] [] (by simp) (by simp [sumLen])
  have hsum : sumLen [] = 0 := rfl
  constructor
  · rw [splitTextChunks, ← hsum]
    split
    · rw [List.flatten_append]
      have := base.2.2.2
      simpa using this
    · have hempty : (List.foldl (chunkStep maxChars) ([], [], sumLen []) texts).2.1 = [] := by
        rw [← hsum] at *
        by_contra h
        exact (by assumption : ¬ _) h
      have := base.2.2.2
      rw [hempty] at this
      simpa using this
  · intro chunk hchunk
    rw [splitTextChunks, ← hsum] at hchunk
    split at hchunk
    · rcases List.mem_append.mp hchunk with h | h
      · exact (base.1 chunk h).1
      · rcases List.mem_singleton.mp h with rfl
        assumption
    · exact (base.1 chunk hchunk).1

/-! ## `_dedup_sentence` (src/src/docx_parser.py, lines 72-92) -/

/-- Python `range(a, b, -1)`: the descending list `[a, a-1, ..., b+1]`. -/
def rangeDown (a b : Nat) : List Nat :=
  (List.range' (b + 1) (a - b)).reverse

/-- The scan of the `for half in ...` loop body of `_dedup_sentence`:
skip invalid split points (`half >= length` -> `continue`), return the
prefix at the first split point where the remainder equals the prefix
exactly or after right-trimming both sides. -/
def tryHalves (text : List Char) : List Nat → Option (List Char)
  | [] => none
  | h :: hs =>
    if h ≥ text.length then tryHalves text hs
    else
      if text.drop h = text.take h ∨ pyRstrip (text.drop h) = pyRstrip (text.take h) then
        some (text.take h)
      else tryHalves text hs

/-- `_dedup_sentence`. -/
def dedupSentence (text : List Char) : List Char :=
  if text.length < 6 then text
  else
    match tryHalves text (rangeDown (text.length / 2 + 2) (max 2 (text.length / 2 - 2))) with
    | some c => c
    | none => text

/-! ## `_dedup_text` (src/src/docx_parser.py, lines 34-69) -/

/-- The body of the per-line loop of `_dedup_text`. -/
def dedupLine (line : List Char) : List Char :=
  let stripped := pyStrip line
  if stripped = [] then line
  else if 4 ≤ stripped.length ∧ stripped.length % 2 = 0 ∧
      stripped.take (stripped.length / 2) = stripped.drop (stripped.length / 2) then
    replaceAll stripped (stripped.take (stripped.length / 2)) line
  else
    let deduped := dedupSentence stripped
    if deduped ≠ stripped then replaceAll stripped deduped line else line

/-- `_dedup_text`: split on newlines, process each line, re-join. -/
def dedupText (text : List Char) : List Char :=
  joinLines ((splitLines text).map dedupLine)

/-- Candidate split points as the claim words them (C3): `h` from
`floor(len/2)+2` down to `floor(len/2)-2` inclusive, bounded to valid
split indices (`0 < h < len`). -/
def specCands (n : Nat) : List Nat :=
  [n / 2 + 2, n / 2 + 1, n / 2, n / 2 - 1, n / 2 - 2].filter
    (fun h => decide (0 < h ∧ h < n))

/-- Modelled from the claim's words (C3): try the candidate split
points of `specCands`; the first candidate whose remainder equals the
prefix (exactly, or after trimming trailing whitespace on both sides)
replaces the line by the prefix; otherwise the line is unchanged. -/
def specDedupSentence (text : List Char) : List Char :=
  match tryHalves text (specCands text.length) with
  | some c => c
  | none => text

/-! ### Facts about trimmed strings -/

lemma pyRstrip_length_le (s : List Char) : (pyRstrip s).length ≤ s.length := by
  have h := (List.dropWhile_suffix (l := s.reverse) Char.isWhitespace).length_le
  simpa [pyRstrip] using h

lemma pyLstrip_length_le (s : List Char) : (pyLstrip s).length ≤ s.length :=
  (List.dropWhile_suffix (l := s) Char.isWhitespace).length_le

/-- A string that equals its own `strip` also equals its own `rstrip`. -/
lemma pyRstrip_eq_self_of_strip (s : List Char) (h : pyStrip s = s) :
    pyRstrip s = s := by
  have hlen1 : (pyRstrip (pyLstrip s)).length = s.length := by
    rw [show pyRstrip (pyLstrip s) = pyStrip s from rfl, h]
  have hlen2 : (pyRstrip (pyLstrip s)).length ≤ (pyLstrip s).length :=
    pyRstrip_length_le _
  have hlen3 : (pyLstrip s).length ≤ s.length := pyLstrip_length_le s
  have hl : pyLstrip s = s := by
    have hlen : (pyLstrip s).length = s.length := by omega
    exact (List.dropWhile_suffix Char.isWhitespace).eq_of_length hlen
  rw [pyStrip, hl] at h
  exact h

/-- `dropWhile` fixed points are preserved by `take`. -/
lemma dropWhile_take_of_eq_self {p : Char → Bool} {l : List Char}
    (h : l.dropWhile p = l) (m : Nat) : (l.take m).dropWhile p = l.take m := by
  cases l with
  | nil => simp
  | cons a t =>
    have hpa : p a = false := by
      by_contra hp
      rw [List.dropWhile_cons, if_pos (by simpa using hp)] at h
      have := (List.dropWhile_suffix (l := t) p).length_le
      have := congrArg List.length h
      simp at this
      omega
    cases m with
    | zero => simp
    | succ m =>
      rw [List.take_succ_cons, List.dropWhile_cons, hpa]
      simp

/-- `rstrip` fixed points are preserved by `drop`. -/
lemma pyRstrip_drop_of_eq_self (s : List Char) (h : pyRstrip s = s) (m : Nat) :
    pyRstrip (s.drop m) = s.drop m := by
  have hrev : s.reverse.dropWhile Char.isWhitespace = s.reverse := by
    have := congrArg List.reverse h
    rwa [pyRstrip, List.reverse_reverse] at this
  rw [pyRstrip, List.reverse_drop, dropWhile_take_of_eq_self hrev,
    ← List.reverse_drop, List.reverse_reverse]

/-! ### The sentence-level scan on trimmed input -/

lemma tryHalves_append (text : List Char) (l₁ l₂ : List Nat) :
    tryHalves text (l₁ ++ l₂) =
      match tryHalves text l₁ with
      | some c => some c
      | none => tryHalves text l₂ := by
  induction l₁ with
  | nil => simp [tryHalves]
  | cons h hs ih =>
    rw [List.cons_append, tryHalves, tryHalves]
    split
    · exact ih
    · split
      · rfl
      · exact ih

/-- On a trimmed string no split point `h` with `2*h < len` can match:
the remainder is strictly longer than the prefix and right-trimming
does not shorten the remainder. -/
lemma tryHalves_no_small (text : List Char) (ht : pyStrip text = text) :
    ∀ l : List Nat, (∀ h ∈ l, 2 * h < text.length) → tryHalves text l = none := by
  have hr : pyRstrip text = text := pyRstrip_eq_self_of_strip text ht
  intro l
  induction l with
  | nil => intro _; rfl
  | cons h hs ih =>
    intro hsmall
    have hh : 2 * h < text.length := hsmall h (List.mem_cons_self h hs)
    have hlt : h < text.length := by omega
    rw [tryHalves, if_neg (by omega)]
    have hdroplen : (text.drop h).length = text.length - h := List.length_drop h text
    have htakelen : (text.take h).length = h := by
      rw [List.length_take]; omega
    have hcond : ¬(text.drop h = text.take h ∨
        pyRstrip (text.drop h) = pyRstrip (text.take h)) := by
      push_neg
      constructor
      · intro heq
        have := congrArg List.length heq
        rw [hdroplen, htakelen] at this
        omega
      · intro heq
        rw [pyRstrip_drop_of_eq_self text hr h] at heq
        have := congrArg List.length heq
        have hle : (pyRstrip (text.take h)).length ≤ h := by
          have := pyRstrip_length_le (text.take h)
          omega
        rw [hdroplen] at this
        omega
    rw [if_neg hcond]
    exact ih (fun x hx => hsmall x (List.mem_cons_of_mem h hx))

/-- Closing step for C3: whenever the claim's candidate list is the
code's candidate list followed by unmatchable small candidates, the two
functions agree. -/
lemma dedupSentence_eq_of_cands (text : List Char) (code extra : List Nat)
    (hn : 6 ≤ text.length) (ht : pyStrip text = text)
    (hcode : rangeDown (text.length / 2 + 2) (max 2 (text.length / 2 - 2)) = code)
    (hspec : specCands text.length = code ++ extra)
    (hextra : ∀ h ∈ extra, 2 * h < text.length) :
    dedupSentence text = specDedupSentence text := by
  rw [dedupSentence, if_neg (by omega), hcode, specDedupSentence, hspec,
    tryHalves_append]
  cases htry : tryHalves text code with
  | some c => rfl
  | none => rw [tryHalves_no_small text ht extra hextra]

lemma specCands_full (n : Nat) (hn : 6 ≤ n) :
    specCands n = [n / 2 + 2, n / 2 + 1, n / 2, n / 2 - 1, n / 2 - 2] := by
  have d1 : decide (0 < n / 2 + 2 ∧ n / 2 + 2 < n) = true := by
    rw [decide_eq_true_eq]; omega
  have d2 : decide (0 < n / 2 + 1 ∧ n / 2 + 1 < n) = true := by
    rw [decide_eq_true_eq]; omega
  have d3 : decide (0 < n / 2 ∧ n / 2 < n) = true := by
    rw [decide_eq_true_eq]; omega
  have d4 : decide (0 < n / 2 - 1 ∧ n / 2 - 1 < n) = true := by
    rw [decide_eq_true_eq]; omega
  have d5 : decide (0 < n / 2 - 2 ∧ n / 2 - 2 < n) = true := by
    rw [decide_eq_true_eq]; omega
  rw [specCands]
  simp only [List.filter_cons, List.filter_nil, d1, d2, d3, d4, d5, if_true]

lemma rangeDown_big (n : Nat) (hn : 10 ≤ n) :
    rangeDown (n / 2 + 2) (max 2 (n / 2 - 2)) =
      [n / 2 + 2, n / 2 + 1, n / 2, n / 2 - 1] := by
  have h1 : max 2 (n / 2 - 2) = n / 2 - 2 := by omega
  have h2 : n / 2 + 2 - (n / 2 - 2) = 4 := by omega
  have h3 : n / 2 - 2 + 1 = n / 2 - 1 := by omega
  rw [rangeDown, h1, h2, h3]
  have h4 : List.range' (n / 2 - 1) 4 =
      [n / 2 - 1, n / 2 - 1 + 1, n / 2 - 1 + 2, n / 2 - 1 + 3] := rfl
  have e1 : n / 2 - 1 + 1 = n / 2 := by omega
  have e2 : n / 2 - 1 + 2 = n / 2 + 1 := by omega
  have e3 : n / 2 - 1 + 3 = n / 2 + 2 := by omega
  rw [h4, e1, e2, e3]
  simp

/-- C3 (amended) -- for every trimmed line of length at least 6,
`_dedup_sentence` behaves exactly as the claim describes it: it scans
the candidate split points from `floor(len/2)+2` down to
`floor(len/2)-2` (bounded to valid indices), replaces the line by the
prefix at the first match, and otherwise leaves the line unchanged.
(Lines shorter than 6 characters are returned unchanged by the code,
where the claim's description would still dedup some of them; on
trimmed lines of length >= 6 the difference between the code's
exclusive lower bound and the claim's inclusive one is unobservable,
because a trimmed remainder strictly longer than the prefix can never
match.) -/
theorem dedupSentence_spec_trimmed (text : List Char) (ht : pyStrip text = text)
    (hn : 6 ≤ text.length) :
    dedupSentence text = specDedupSentence text := by
  have hk : text.length / 2 = 3 ∨ text.length / 2 = 4 ∨ 5 ≤ text.length / 2 := by
    omega
  rcases hk with hk | hk | hk
  · -- n ∈ {6, 7}: code tries [5, 4, 3], spec additionally [2, 1]
    refine dedupSentence_eq_of_cands text [5, 4, 3] [2, 1] hn ht ?_ ?_ ?_
    · rw [hk]; rfl
    · rw [specCands_full _ hn, hk]; rfl
    · intro h hh
      simp only [List.mem_cons, List.not_mem_nil, or_false] at hh
      rcases hh with rfl | rfl <;> omega
  · -- n ∈ {8, 9}: code tries [6, 5, 4, 3], spec additionally [2]
    refine dedupSentence_eq_of_cands text [6, 5, 4, 3] [2] hn ht ?_ ?_ ?_
    · rw [hk]; rfl
    · rw [specCands_full _ hn, hk]; rfl
    · intro h hh
      simp only [List.mem_cons, List.not_mem_nil, or_false] at hh
      subst hh
      omega
  · -- n >= 10: code tries [n/2+2 .. n/2-1], spec additionally [n/2-2]
    have hn10 : 10 ≤ text.length := by omega
    refine dedupSentence_eq_of_cands text
      [text.length / 2 + 2, text.length / 2 + 1, text.length / 2, text.length / 2 - 1]
      [text.length / 2 - 2] hn ht ?_ ?_ ?_
    · exact rangeDown_big _ hn10
    · rw [specCands_full _ hn]; rfl
    · intro h hh
      simp only [List.mem_cons, List.not_mem_nil, or_false] at hh
      subst hh
      omega

/-- Witness for C3's amended theorem on the trimmed 6-character line
"abcdef" (no duplication: both sides leave it unchanged). -/
theorem dedupSentence_spec_trimmed_witness :
    pyStrip ['a', 'b', 'c', 'd', 'e', 'f'] = ['a', 'b', 'c', 'd', 'e', 'f'] ∧
    6 ≤ (['a', 'b', 'c', 'd', 'e', 'f'] : List Char).length ∧
    dedupSentence ['a', 'b', 'c', 'd', 'e', 'f'] =
      specDedupSentence ['a', 'b', 'c', 'd', 'e', 'f'] :=
  ⟨by decide, by decide,
    dedupSentence_spec_trimmed ['a', 'b', 'c', 'd', 'e', 'f'] (by decide) (by decide)⟩

/-- Counterexample for C3 as stated: the line "a   a" (length 5) is
non-empty, trimmed and not an exact doubled string, and at the claimed
candidate `h = floor(5/2) - 2 = 0`..`4` the claim's scan matches at
`h = 4` (remainder "a" equals prefix "a   " after right-trimming both
sides), so the claim says the line becomes "a   "; the code, which
returns every line shorter than 6 characters unchanged, leaves it as
"a   a". -/
theorem dedupSentence_claim_cex :
    pyStrip ['a', ' ', ' ', ' ', 'a'] = ['a', ' ', ' ', ' ', 'a'] ∧
    (['a', ' ', ' ', ' ', 'a'] : List Char) ≠ [] ∧
    ¬((['a', ' ', ' ', ' ', 'a'] : List Char).length % 2 = 0 ∧
        4 ≤ (['a', ' ', ' ', ' ', 'a'] : List Char).length ∧
        (['a', ' ', ' ', ' ', 'a'] : List Char).take 2 =
          (['a', ' ', ' ', ' ', 'a'] : List Char).drop 2) ∧
    specDedupSentence ['a', ' ', ' ', ' ', 'a'] = ['a', ' ', ' ', ' '] ∧
    dedupSentence ['a', ' ', ' ', ' ', 'a'] = ['a', ' ', ' ', ' ', 'a'] := by
  decide

/-- Counterexample for C4 as stated: `_dedup_text` is not idempotent.
On "abababab" one pass halves the doubled line to "abab", which is
itself a doubled string, so a second pass shortens it again to "ab". -/
theorem dedupText_not_idempotent :
    dedupText (dedupText ('a' :: 'b' :: 'a' :: 'b' :: 'a' :: 'b' :: 'a' :: 'b' :: [])) ≠
      dedupText ('a' :: 'b' :: 'a' :: 'b' :: 'a' :: 'b' :: 'a' :: 'b' :: []) := by
  decide

/-- C4 (amended) -- `_dedup_text` is idempotent on every string it
leaves unchanged (every fixed point), and in particular on the spec's
tested strings, e.g. "Release notesRelease notes" (which it maps to the
fixed point "Release notes"); it is not idempotent on all strings
(see the counterexample "abababab"). -/
theorem dedupText_idem_amended :
    dedupText (dedupText ("Release notesRelease notes".data)) =
      dedupText ("Release notesRelease notes".data) ∧
    ∀ x : List Char, dedupText x = x → dedupText (dedupText x) = dedupText x := by
  constructor
  · decide
  · intro x hx
    rw [hx]
    exact hx

/-- Witness for the hypothesis-bearing part of C4's amended theorem at
the fixed point "Release notes". -/
theorem dedupText_idem_amended_witness :
    dedupText ("Release notes".data) = "Release notes".data ∧
    dedupText (dedupText ("Release notes".data)) = dedupText ("Release notes".data) :=
  ⟨by decide, dedupText_idem_amended.2 ("Release notes".data) (by decide)⟩

/-! ## Content elements and the Element Merger
(tail of `parse_docx`, src/src/docx_parser.py, lines 231-243) -/

/-- The element dictionaries produced by the parser:
`{"type": "text", "content": ...}` or
`{"type": "image", "content": ..., "mime": ...}`. -/
inductive Element where
  | text (content : List Char)
  | image (content : List Char) (mime : List Char)
deriving DecidableEq

def Element.isText : Element → Bool
  | .text _ => true
  | _ => false

def Element.isImage : Element → Bool
  | .image _ _ => true
  | _ => false

/-- The blank-line separator `"\n\n"` used when merging text. -/
def nl2 : List Char := Char.ofNat 10 :: Char.ofNat 10 :: []

/-- The `for elem in all_elements` merging loop.  The source appends to
the end of `merged` and mutates its last element
(`merged[-1]["content"] += "\n\n" + elem["content"]`); here the merged
list is carried in reverse so that the last element is the head. -/
def mergeAux (acc : List Element) : List Element → List Element
  | [] => acc.reverse
  | .text c :: es =>
    match acc with
    | .text c0 :: rest => mergeAux (.text (c0 ++ nl2 ++ c) :: rest) es
    | _ => mergeAux (.text c :: acc) es
  | e :: es => mergeAux (e :: acc) es

/-- The Element Merger: fold adjacent text elements. -/
def mergeElements (l : List Element) : List Element :=
  mergeAux [] l

/-- Modelled from the claim's words (C5): fold each maximal run of
adjacent text elements into one text element whose content is the run's
contents joined by the blank-line separator; image elements pass
through unchanged and break runs. -/
def specMergeElements : List Element → List Element
  | [] => []
  | .image b m :: es => .image b m :: specMergeElements es
  | .text c :: es =>
    match specMergeElements es with
    | .text c2 :: rest => .text (c ++ nl2 ++ c2) :: rest
    | r => .text c :: r

/-- No two adjacent elements are both text elements. -/
def noAdjacentText : List Element → Bool
  | .text _ :: .text _ :: _ => false
  | _ :: rest => noAdjacentText rest
  | [] => true

lemma specMergeElements_text_text (c d : List Char) (l : List Element) :
    specMergeElements (.text c :: .text d :: l) =
      specMergeElements (.text (c ++ nl2 ++ d) :: l) := by
  show (match specMergeElements (.text d :: l) with
        | .text c2 :: rest => Element.text (c ++ nl2 ++ c2) :: rest
        | r => .text c :: r) = _
  rcases hr : specMergeElements l with _ | ⟨e, r⟩
  · simp [specMergeElements, hr]
  · cases e with
    | text c2 =>
      simp only [specMergeElements, hr]
      simp [List.append_assoc]
    | image b m =>
      simp [specMergeElements, hr]

lemma mergeAux_spec (l : List Element) :
    ∀ acc : List Element,
      mergeAux acc l =
        match acc with
        | .text c0 :: rest => rest.reverse ++ specMergeElements (.text c0 :: l)
        | _ => acc.reverse ++ specMergeElements l := by
  induction l with
  | nil =>
    intro acc
    rcases acc with _ | ⟨e, rest⟩
    · rfl
    · cases e with
      | text c0 =>
        show (Element.text c0 :: rest).reverse = _
        simp [specMergeElements, List.reverse_cons]
      | image b m => simp [mergeAux, specMergeElements]
  | cons e es ih =>
    intro acc
    cases e with
    | text c =>
      rcases acc with _ | ⟨a0, rest⟩
      · show mergeAux [Element.text c] es = _
        rw [ih]
      · cases a0 with
        | text c0 =>
          show mergeAux (Element.text (c0 ++ nl2 ++ c) :: rest) es = _
          rw [ih]
          simp only []
          rw [specMergeElements_text_text]
        | image b m =>
          show mergeAux (Element.text c :: Element.image b m :: rest) es = _
          rw [ih]
    | image b m =>
      rcases acc with _ | ⟨a0, rest⟩
      · show mergeAux [Element.image b m] es = _
        rw [ih]
        simp [specMergeElements]
      · cases a0 with
        | text c0 =>
          show mergeAux (Element.image b m :: Element.text c0 :: rest) es = _
          rw [ih]
          simp only []
          rcases hr : specMergeElements es with _ | ⟨e2, r⟩
          · simp [specMergeElements, hr, List.reverse_cons]
          · simp only [specMergeElements, hr]
            simp [List.reverse_cons]
        | image b0 m0 =>
          show mergeAux (Element.image b m :: Element.image b0 m0 :: rest) es = _
          rw [ih]
          simp only [specMergeElements]
          simp [List.reverse_cons]

lemma mergeElements_eq_spec (l : List Element) :
    mergeElements l = specMergeElements l := by
  rw [mergeElements, mergeAux_spec]
  rfl

lemma specMergeElements_length (l : List Element) :
    (specMergeElements l).length ≤ l.length := by
  induction l with
  | nil => simp [specMergeElements]
  | cons e es ih =>
    cases e with
    | image b m => simpa [specMergeElements] using ih
    | text c =>
      rcases hr : specMergeElements es with _ | ⟨e2, r⟩
      · simp [specMergeElements, hr]
      · cases e2 with
        | text c2 =>
          simp only [specMergeElements, hr] at ih ⊢
          simp only [List.length_cons] at ih ⊢
          omega
        | image b2 m2 =>
          simp only [specMergeElements, hr] at ih ⊢
          simp only [List.length_cons] at ih ⊢
          omega

lemma noAdjacentText_cons_of_eq (a b : Element) (r : List Element)
    (h : a.isText = b.isText) :
    noAdjacentText (a :: r) = noAdjacentText (b :: r) := by
  rcases r with _ | ⟨e2, rr⟩
  · cases a <;> cases b <;> simp_all [noAdjacentText]
  · cases a <;> cases b <;> cases e2 <;> simp_all [Element.isText, noAdjacentText]

lemma specMergeElements_noAdjacent (l : List Element) :
    noAdjacentText (specMergeElements l) = true := by
  induction l with
  | nil => rfl
  | cons e es ih =>
    cases e with
    | image b m =>
      rcases hr : specMergeElements es with _ | ⟨e2, r⟩
      · simp [specMergeElements, hr, noAdjacentText]
      · rw [hr] at ih
        cases e2 <;> simpa [specMergeElements, hr, noAdjacentText] using ih
    | text c =>
      rcases hr : specMergeElements es with _ | ⟨e2, r⟩
      · simp [specMergeElements, hr, noAdjacentText]
      · rw [hr] at ih
        cases e2 with
        | text c2 =>
          simp only [specMergeElements, hr]
          rw [noAdjacentText_cons_of_eq (.text (c ++ nl2 ++ c2)) (.text c2) r rfl]
          exact ih
        | image b2 m2 =>
          simp only [specMergeElements, hr]
          simpa [noAdjacentText] using ih

lemma specMergeElements_of_noAdjacent (l : List Element)
    (h : noAdjacentText l = true) : specMergeElements l = l := by
  induction l with
  | nil => rfl
  | cons e es ih =>
    cases e with
    | image b m =>
      have hes : noAdjacentText es = true := by
        rcases es with _ | ⟨e2, r⟩
        · rfl
        · simpa [noAdjacentText] using h
      simp [specMergeElements, ih hes]
    | text c =>
      rcases es with _ | ⟨e2, r⟩
      · rfl
      · cases e2 with
        | text c2 => simp [noAdjacentText] at h
        | image b2 m2 =>
          have hes : noAdjacentText (Element.image b2 m2 :: r) = true := by
            simpa [noAdjacentText] using h
          show (match specMergeElements (Element.image b2 m2 :: r) with
                | .text c2 :: rest => Element.text (c ++ nl2 ++ c2) :: rest
                | r2 => Element.text c :: r2) = _
          rw [ih hes]

lemma specMergeElements_filter_image (l : List Element) :
    (specMergeElements l).filter Element.isImage = l.filter Element.isImage := by
  induction l with
  | nil => rfl
  | cons e es ih =>
    cases e with
    | image b m => simp [specMergeElements, List.filter_cons, Element.isImage, ih]
    | text c =>
      rcases hr : specMergeElements es with _ | ⟨e2, r⟩
      · simp only [specMergeElements, hr]
        rw [hr] at ih
        simp [List.filter_cons, Element.isImage, ← ih]
      · cases e2 with
        | text c2 =>
          simp only [specMergeElements, hr]
          rw [hr] at ih
          simp only [List.filter_cons, Element.isImage] at ih ⊢
          simpa using ih
        | image b2 m2 =>
          simp only [specMergeElements, hr]
          rw [hr] at ih
          simp only [List.filter_cons, Element.isImage] at ih ⊢
          simpa using ih

/-- C5 -- the Element Merger folds each maximal run of adjacent text
elements into one (contents joined by the blank-line separator, as
described by the spec-modelled `specMergeElements`), passes image
elements through unchanged and in order, never increases the length,
leaves no two adjacent text elements, and is idempotent. -/
theorem mergeElements_spec (l : List Element) :
    mergeElements l = specMergeElements l ∧
    (mergeElements l).length ≤ l.length ∧
    noAdjacentText (mergeElements l) = true ∧
    mergeElements (mergeElements l) = mergeElements l ∧
    (mergeElements l).filter Element.isImage = l.filter Element.isImage := by
  have he := mergeElements_eq_spec l
  refine ⟨he, ?_, ?_, ?_, ?_⟩
  · rw [he]; exact specMergeElements_length l
  · rw [he]; exact specMergeElements_noAdjacent l
  · rw [he, mergeElements_eq_spec]
    exact specMergeElements_of_noAdjacent _ (specMergeElements_noAdjacent l)
  · rw [he]; exact specMergeElements_filter_image l

/-! ## `_table_to_markdown` (src/src/docx_parser.py, lines 139-165)

The function is modelled on the grid of raw cell strings
(`cell.text` for each cell of each row); resolving the docx `Table`
object into that grid is I/O handled by the python-docx library. -/

/-- The visible line-break marker `" <br> "`. -/
def brMark : List Char := " <br> ".data

/-- Cell normalisation: `cell.text.strip().replace("\n", " <br> ")`. -/
def cellNorm (cell : List Char) : List Char :=
  replaceAll (Char.ofNat 10 :: []) brMark (pyStrip cell)

/-- The cell delimiter `" | "` and the bounding delimiters. -/
def cellSep : List Char := " | ".data

def vbarLeft : List Char := ('|' :: ' ' :: [])

def vbarRight : List Char := (' ' :: '|' :: [])

/-- The dash cell `"---"` of the separator line. -/
def dashCell : List Char := "---".data

/-- The `while len(row) < len(rows_data[0]): row.append("")` padding
loop. -/
def padRow (row : List (List Char)) (n : Nat) : List (List Char) :=
  if h : row.length < n then padRow (row ++ [[]]) n else row
termination_by n - row.length
decreasing_by
  simp only [List.length_append, List.length_cons, List.length_nil]
  omega

/-- `_table_to_markdown` on the grid of raw cell strings. -/
def tableToMarkdown (rows : List (List (List Char))) : List Char :=
  let rowsData := rows.map (fun row => row.map cellNorm)
  match rowsData with
  | [] => []
  | r0 :: rest =>
    let header := vbarLeft ++ List.intercalate cellSep r0 ++ vbarRight
    let sep := vbarLeft ++
      List.intercalate cellSep (r0.map (fun _ => dashCell)) ++ vbarRight
    let dataLines := rest.map (fun row =>
      vbarLeft ++ List.intercalate cellSep (padRow row r0.length) ++ vbarRight)
    List.intercalate (Char.ofNat 10 :: []) (header :: sep :: dataLines)

/-- Modelled from the claim's words (C6): empty grid -> empty string;
otherwise the first line renders the first row, the second line is a
separator with one dash cell per first-row column, and every following
row is right-padded with empty cells to the first row's column count
and rendered the same way; cells have internal line breaks replaced by
a visible marker, every line joins its cells with the fixed delimiter
and is bounded by delimiters at both ends. -/
def specTableToMarkdown (rows : List (List (List Char))) : List Char :=
  match rows.map (fun row => row.map cellNorm) with
  | [] => []
  | r0 :: rest =>
    let renderRow := fun (cells : List (List Char)) =>
      vbarLeft ++ List.intercalate cellSep cells ++ vbarRight
    let headerLine := renderRow r0
    let sepLine := renderRow (List.replicate r0.length dashCell)
    let dataLines := rest.map (fun row =>
      renderRow (row ++ List.replicate (r0.length - row.length) []))
    List.intercalate (Char.ofNat 10 :: []) (headerLine :: sepLine :: dataLines)

lemma padRow_eq (n : Nat) :
    ∀ row : List (List Char), padRow row n = row ++ List.replicate (n - row.length) [] := by
  suffices h : ∀ (k : Nat) (row : List (List Char)), n - row.length = k →
      padRow row n = row ++ List.replicate (n - row.length) [] by
    intro row
    exact h (n - row.length) row rfl
  intro k
  induction k with
  | zero =>
    intro row hk
    rw [padRow, dif_neg (by omega), hk, List.replicate_zero, List.append_nil]
  | succ k ih =>
    intro row hk
    have hlt : row.length < n := by omega
    rw [padRow, dif_pos hlt]
    have hk' : n - (row ++ [[]]).length = k := by
      simp only [List.length_append, List.length_cons, List.length_nil]
      omega
    rw [ih (row ++ [[]]) hk', hk']
    have : n - row.length = k + 1 := hk
    rw [this]
    simp [List.replicate_succ, List.append_assoc]

/-- C6 -- `_table_to_markdown` renders grids exactly as the claim
describes (empty string on an empty grid; header line, dash separator
with one dash cell per first-row column, right-padded data rows,
line-break markers inside cells). -/
theorem tableToMarkdown_spec (rows : List (List (List Char))) :
    tableToMarkdown rows = specTableToMarkdown rows ∧ tableToMarkdown [] = [] := by
  constructor
  · rcases rows with _ | ⟨r, rs⟩
    · rfl
    · have hsep : List.map (fun _ => dashCell) (r.map cellNorm) =
          List.replicate (r.map cellNorm).length dashCell := List.map_const' _ _
      have hpad : ∀ row : List (List Char), padRow row (r.map cellNorm).length =
          row ++ List.replicate ((r.map cellNorm).length - row.length) [] :=
        padRow_eq _
      simp only [tableToMarkdown, specTableToMarkdown, List.map_cons, hsep, hpad]
  · rfl

/-! ## `_clean_output` (src/src/ai_processor.py, lines 67-83) -/

/-- The refusal prefix "i'm sorry" (the apostrophe is `Char.ofNat 39`). -/
def refusalSorry : List Char :=
  'i' :: Char.ofNat 39 :: 'm' :: ' ' :: 's' :: 'o' :: 'r' :: 'r' :: 'y' :: []

/-- The refusal prefix "i apologize". -/
def refusalApologize : List Char := "i apologize".data

/-- The model of `re.match(r"^!\[.*\]\(.*\)$", stripped)`: the line
starts with the two characters open-image, ends with a close paren, and
the part strictly between them contains the two-character close-open
sequence.  (Lines fed to this matcher come from `text.split("\n")` and
therefore contain no newline, on which this model coincides with the
regex.) -/
def isImagePlaceholder (s : List Char) : Bool :=
  ('!' :: '[' :: []).isPrefixOf s &&
  (')' :: []).isSuffixOf s &&
  containsSub (']' :: '(' :: []) ((s.drop 2).dropLast)

/-- The empty image references `"![]()"` and `"![]"` removed verbatim. -/
def bangEmptyParen : List Char := "![]()".data

def bangEmpty : List Char := "![]".data

/-- The per-line keep condition of `_clean_output` (a line is kept when
none of the removal patterns fires on its stripped form). -/
def keepLine (line : List Char) : Bool :=
  let stripped := pyStrip line
  !(isImagePlaceholder stripped) &&
  !(refusalSorry.isPrefixOf (lowerL stripped) ||
    refusalApologize.isPrefixOf (lowerL stripped)) &&
  !(stripped == bangEmptyParen || stripped == bangEmpty)

/-- `_clean_output`. -/
def cleanOutput (text : List Char) : List Char :=
  joinLines ((splitLines text).filter keepLine)

/-! ## `_process_image` (src/src/ai_processor.py, lines 170-211)

The OpenAI call is an external effect; it is modelled by its outcome:
`.error` when `_call_openai` raises, `.ok raw` when it returns the
response text `raw`.  Everything the function does with that outcome is
translated from the source. -/

/-- The `SKIP_UI_IMAGE` sentinel. -/
def skipSentinel : List Char := "SKIP_UI_IMAGE".data

/-- `_process_image`, as a function of the service-call outcome. -/
def processImage (resp : Except Unit (List Char)) : List Char :=
  match resp with
  | .error _ => []
  | .ok raw0 =>
    let raw := pyStrip raw0
    if containsSub skipSentinel raw then []
    else if refusalSorry.isPrefixOf (lowerL raw) ||
        refusalApologize.isPrefixOf (lowerL raw) then []
    else cleanOutput raw

/-! ## `process_with_ai` (src/src/ai_processor.py, lines 214-285) -/

/-- `POSITION_HINT_LEN`: the slice bound of
`elem["content"][:80]` (line 254). -/
def POSITION_HINT_LEN : Nat := 80

/-- Step 1 of `process_with_ai`: separate text and image elements,
threading `last_text_hint` (initially `""`).  Returns the text
contents and, aligned with the images in order, the position hint
recorded for each image. -/
def splitForAI (hint : List Char) :
    List Element → List (List Char) × List (List Char)
  | [] => ([], [])
  | .text c :: es =>
    let rest := splitForAI (c.take POSITION_HINT_LEN) es
    (c :: rest.1, rest.2)
  | .image _ _ :: es =>
    let rest := splitForAI hint es
    (rest.1, hint :: rest.2)

/-- Steps 3-4 of `process_with_ai`, as a function of the text-chunk
results and the per-image service outcomes: keep the non-empty image
descriptions, join the text results with blank lines, and append the
supplementary diagram section only when some description is
non-empty. -/
def diagramSection : Nat → List (List Char) → List Char
  | _, [] => []
  | i, d :: ds =>
    "### Diagram ".data ++ (Nat.repr i).data ++ nl2 ++ d ++ nl2 ++
      diagramSection (i + 1) ds

def assembleOutput (textResults : List (List Char))
    (responses : List (Except Unit (List Char))) : List Char :=
  let descs := (responses.map processImage).filter (fun d => d ≠ [])
  let merged := List.intercalate nl2 textResults
  if descs = [] then merged
  else
    merged ++ nl2 ++ "---".data ++ nl2 ++
      "## Technical Diagram Descriptions".data ++ nl2 ++ diagramSection 1 descs

/-! ### Substring containment and stripping -/

lemma containsSub_iff (pat l : List Char) :
    containsSub pat l = true ↔ ∃ a b, l = a ++ pat ++ b := by
  induction l with
  | nil =>
    rw [show containsSub pat [] = pat.isPrefixOf [] from rfl,
      List.isPrefixOf_iff_prefix, List.prefix_nil]
    constructor
    · rintro rfl
      exact ⟨[], [], rfl⟩
    · rintro ⟨a, b, hab⟩
      have h1 : a ++ pat ++ b = [] := hab.symm
      have h2 := List.append_eq_nil.mp h1
      exact (List.append_eq_nil.mp h2.1).2
  | cons c cs ih =>
    rw [show containsSub pat (c :: cs) =
        (pat.isPrefixOf (c :: cs) || containsSub pat cs) from rfl,
      Bool.or_eq_true, ih, List.isPrefixOf_iff_prefix]
    constructor
    · rintro (⟨t, ht⟩ | ⟨a, b, rfl⟩)
      · exact ⟨[], t, by simpa using ht.symm⟩
      · exact ⟨c :: a, b, rfl⟩
    · rintro ⟨a, b, hab⟩
      rcases a with _ | ⟨a0, a2⟩
      · left
        exact ⟨b, by simpa using hab.symm⟩
      · right
        refine ⟨a2, b, ?_⟩
        simp only [List.cons_append, List.cons.injEq] at hab
        exact hab.2

/-- Left-stripping does not affect containment of a pattern whose
first character is not whitespace. -/
lemma containsSub_pyLstrip (p0 : Char) (pt : List Char)
    (h0 : p0.isWhitespace = false) (l : List Char) :
    containsSub (p0 :: pt) (pyLstrip l) = containsSub (p0 :: pt) l := by
  induction l with
  | nil => rfl
  | cons c cs ih =>
    by_cases hc : c.isWhitespace = true
    · have hpref : (p0 :: pt).isPrefixOf (c :: cs) = false := by
        have hne : (p0 == c) = false := by
          rw [beq_eq_false_iff_ne]
          intro heq
          rw [heq] at h0
          rw [hc] at h0
          cases h0
        rw [show (p0 :: pt).isPrefixOf (c :: cs) =
            ((p0 == c) && pt.isPrefixOf cs) from rfl, hne]
        rfl
      rw [pyLstrip, List.dropWhile_cons, if_pos hc,
        show containsSub (p0 :: pt) (c :: cs) =
          ((p0 :: pt).isPrefixOf (c :: cs) || containsSub (p0 :: pt) cs) from rfl,
        hpref]
      simpa [pyLstrip] using ih
    · rw [pyLstrip, List.dropWhile_cons, if_neg hc]

/-- A string whose last character is not whitespace is an `rstrip`
fixed point. -/
lemma pyRstrip_eq_self_of_last (a : List Char) (e0 : Char) (t : List Char)
    (ha : a.reverse = e0 :: t) (h0 : e0.isWhitespace = false) :
    pyRstrip a = a := by
  rw [pyRstrip, ha, List.dropWhile_cons, if_neg (by rw [h0]; simp), ← ha,
    List.reverse_reverse]

/-- `rstrip` of an append never eats into an `rstrip`-fixed left part. -/
lemma pyRstrip_append_self (a b : List Char) (ha : pyRstrip a = a) :
    pyRstrip (a ++ b) = a ++ pyRstrip b := by
  have ha' : a.reverse.dropWhile Char.isWhitespace = a.reverse := by
    have := congrArg List.reverse ha
    rwa [pyRstrip, List.reverse_reverse] at this
  rw [pyRstrip, List.reverse_append, List.dropWhile_append]
  by_cases hb : (b.reverse.dropWhile Char.isWhitespace).isEmpty = true
  · rw [if_pos hb, ha', List.reverse_reverse]
    have hb' : pyRstrip b = [] := by
      rw [pyRstrip, List.isEmpty_iff.mp hb]
      rfl
    rw [hb', List.append_nil]
  · rw [if_neg hb, List.reverse_append, List.reverse_reverse, pyRstrip]

/-- Containment of the non-whitespace sentinel survives `strip`. -/
lemma containsSub_skip_pyStrip (l : List Char)
    (h : containsSub skipSentinel l = true) :
    containsSub skipSentinel (pyStrip l) = true := by
  have h1 : containsSub skipSentinel (pyLstrip l) = true := by
    rw [show skipSentinel = 'S' :: "KIP_UI_IMAGE".data from rfl] at h ⊢
    rw [containsSub_pyLstrip 'S' ("KIP_UI_IMAGE".data) (by decide) l]
    exact h
  rcases (containsSub_iff _ _).mp h1 with ⟨a, b, hab⟩
  have hrs : pyRstrip (a ++ skipSentinel) = a ++ skipSentinel := by
    apply pyRstrip_eq_self_of_last (a ++ skipSentinel) 'E'
      ("GAMI_IU_PIKS".data ++ a.reverse)
    · rw [List.reverse_append]
      rfl
    · decide
  rw [pyStrip, hab, pyRstrip_append_self _ b hrs]
  exact (containsSub_iff _ _).mpr ⟨a, pyRstrip b, by simp⟩

/-- `Char.toLower` fixes the whitespace characters. -/
lemma toLower_of_isWhitespace {c : Char} (h : c.isWhitespace = true) :
    Char.toLower c = c := by
  have h' : ((c = ' ' ∨ c = '\t') ∨ c = '\r') ∨ c = '\n' := by
    simpa [Char.isWhitespace] using h
  rcases h' with ((rfl | rfl) | rfl) | rfl <;> decide

/-- A character whose lowercase form is a non-whitespace character is
itself non-whitespace. -/
lemma not_ws_of_toLower {x y : Char} (hxy : Char.toLower x = y)
    (hy : y.isWhitespace = false) : x.isWhitespace = false := by
  by_contra hx
  have hx' : x.isWhitespace = true := by
    revert hx
    cases x.isWhitespace <;> simp
  rw [toLower_of_isWhitespace hx'] at hxy
  rw [hxy] at hx'
  rw [hx'] at hy
  cases hy

/-- Case-insensitive refusal detection survives `strip`: if the
lowercased response starts with a prefix whose first and last
characters are not whitespace, the lowercased stripped response starts
with it too. -/
lemma isPrefixOf_lowerL_pyStrip (pref l : List Char) (h0 : Char) (t0 : List Char)
    (hp : pref = h0 :: t0) (hw0 : h0.isWhitespace = false)
    (e0 : Char) (te : List Char) (hr : pref.reverse = e0 :: te)
    (hwe : e0.isWhitespace = false)
    (h : pref.isPrefixOf (lowerL l) = true) :
    pref.isPrefixOf (lowerL (pyStrip l)) = true := by
  rcases List.isPrefixOf_iff_prefix.mp h with ⟨t, ht⟩
  have hlenle : pref.length ≤ l.length := by
    have := congrArg List.length ht
    simp [lowerL] at this
    omega
  have hl : l = l.take pref.length ++ l.drop pref.length :=
    (List.take_append_drop _ l).symm
  have hma : lowerL (l.take pref.length) = pref := by
    rw [lowerL, List.map_take]
    rw [show List.map Char.toLower l = lowerL l from rfl, ← ht, List.take_left]
  -- the preimage of the prefix starts and ends with non-whitespace
  have halen : (l.take pref.length).length = pref.length := by
    rw [List.length_take]
    omega
  rcases ha : l.take pref.length with _ | ⟨a0, a2⟩
  · rw [ha] at halen
    rw [hp] at halen
    simp at halen
  have ha0 : Char.toLower a0 = h0 := by
    rw [ha, hp] at hma
    simp only [lowerL, List.map_cons, List.cons.injEq] at hma
    exact hma.1
  have hwa0 : a0.isWhitespace = false := not_ws_of_toLower ha0 hw0
  have hrev : (l.take pref.length).reverse ≠ [] := by
    rw [ha]
    simp
  rcases hx : (l.take pref.length).reverse with _ | ⟨x0, xs⟩
  · exact absurd hx hrev
  have hx0 : Char.toLower x0 = e0 := by
    have : lowerL ((l.take pref.length).reverse) = pref.reverse := by
      rw [lowerL, List.map_reverse, show List.map Char.toLower (l.take pref.length) =
        lowerL (l.take pref.length) from rfl, hma]
    rw [hx, hr] at this
    simp only [lowerL, List.map_cons, List.cons.injEq] at this
    exact this.1
  have hwx0 : x0.isWhitespace = false := not_ws_of_toLower hx0 hwe
  -- strip the decomposed string
  have hstrip : pyStrip l = l.take pref.length ++ pyRstrip (l.drop pref.length) := by
    conv_lhs => rw [hl]
    rw [pyStrip, pyLstrip, ha, List.cons_append, List.dropWhile_cons,
      if_neg (by rw [hwa0]; simp), ← List.cons_append, ← ha]
    exact pyRstrip_append_self _ _ (pyRstrip_eq_self_of_last _ x0 xs hx hwx0)
  rw [hstrip, lowerL, List.map_append,
    show List.map Char.toLower (l.take pref.length) = lowerL (l.take pref.length) from rfl,
    hma, List.isPrefixOf_iff_prefix]
  exact List.prefix_append pref _

/-- C7 -- `_process_image` never propagates a failure: a raised
exception in the service call, a response containing the
`SKIP_UI_IMAGE` sentinel, and a response starting (case-insensitively)
with a refusal prefix all yield the empty description; and in
`process_with_ai` the text-derived part of the output (the blank-line
join of the text-chunk results) is a prefix of the final output
whatever the image outcomes are, so image failures never alter or drop
it. -/
theorem processImage_isolation :
    (∀ e : Unit, processImage (.error e) = []) ∧
    (∀ raw : List Char, containsSub skipSentinel raw = true →
        processImage (.ok raw) = []) ∧
    (∀ raw : List Char,
        (refusalSorry.isPrefixOf (lowerL raw) ||
          refusalApologize.isPrefixOf (lowerL raw)) = true →
        processImage (.ok raw) = []) ∧
    (∀ (textResults : List (List Char)) (responses : List (Except Unit (List Char))),
        List.intercalate nl2 textResults <+: assembleOutput textResults responses) := by
  refine ⟨fun e => rfl, ?_, ?_, ?_⟩
  · intro raw h
    show (if containsSub skipSentinel (pyStrip raw) = true then ([] : List Char)
          else if (refusalSorry.isPrefixOf (lowerL (pyStrip raw)) ||
              refusalApologize.isPrefixOf (lowerL (pyStrip raw))) = true then []
          else cleanOutput (pyStrip raw)) = []
    rw [if_pos (containsSub_skip_pyStrip raw h)]
  · intro raw h
    show (if containsSub skipSentinel (pyStrip raw) = true then ([] : List Char)
          else if (refusalSorry.isPrefixOf (lowerL (pyStrip raw)) ||
              refusalApologize.isPrefixOf (lowerL (pyStrip raw))) = true then []
          else cleanOutput (pyStrip raw)) = []
    by_cases hs : containsSub skipSentinel (pyStrip raw) = true
    · rw [if_pos hs]
    · rw [if_neg hs, if_pos ?_]
      rw [Bool.or_eq_true] at h ⊢
      rcases h with h | h
      · left
        exact isPrefixOf_lowerL_pyStrip refusalSorry raw 'i'
          (Char.ofNat 39 :: 'm' :: ' ' :: 's' :: 'o' :: 'r' :: 'r' :: 'y' :: [])
          rfl (by decide) 'y'
          ('r' :: 'r' :: 'o' :: 's' :: ' ' :: 'm' :: Char.ofNat 39 :: 'i' :: [])
          (by decide) (by decide) h
      · right
        exact isPrefixOf_lowerL_pyStrip refusalApologize raw 'i'
          (" apologize".data) rfl (by decide) 'e' ("zigolopa i".data)
          (by decide) (by decide) h
  · intro textResults responses
    have hassem : assembleOutput textResults responses =
        if ((responses.map processImage).filter (fun d => d ≠ [])) = []
        then List.intercalate nl2 textResults
        else List.intercalate nl2 textResults ++ nl2 ++ "---".data ++ nl2 ++
          "## Technical Diagram Descriptions".data ++ nl2 ++
          diagramSection 1 ((responses.map processImage).filter (fun d => d ≠ [])) := rfl
    rw [hassem]
    split
    · exact List.prefix_refl _
    · simp only [List.append_assoc]
      exact List.prefix_append _ _

/-- Witness for C7 at concrete failing responses: a response carrying
the sentinel and a case-varied refusal response both yield the empty
description. -/
theorem processImage_isolation_witness :
    containsSub skipSentinel ("this is a SKIP_UI_IMAGE case".data) = true ∧
    processImage (.ok ("this is a SKIP_UI_IMAGE case".data)) = [] ∧
    (refusalSorry.isPrefixOf (lowerL ("I APOLOGIZE, but no.".data)) ||
      refusalApologize.isPrefixOf (lowerL ("I APOLOGIZE, but no.".data))) = true ∧
    processImage (.ok ("I APOLOGIZE, but no.".data)) = [] :=
  ⟨by decide,
    processImage_isolation.2.1 ("this is a SKIP_UI_IMAGE case".data) (by decide),
    by decide,
    processImage_isolation.2.2.1 ("I APOLOGIZE, but no.".data) (by decide)⟩

/-! ## Position hints (C8, C10) -/

/-- Content of the nearest (last) text element of a list, if any. -/
def lastTextContent : List Element → Option (List Char)
  | [] => none
  | .text c :: es =>
    match lastTextContent es with
    | some d => some d
    | none => some c
  | .image _ _ :: es => lastTextContent es

/-- Number of image elements of a list. -/
def countImages (l : List Element) : Nat :=
  l.countP (fun e => e.isImage)

lemma splitForAI_hint_general (es : List Element) :
    ∀ (hint : List Char) (i : Nat) (hi : i < es.length),
      (es.get ⟨i, hi⟩).isImage = true →
      ((splitForAI hint es).2).get? (countImages (es.take i)) =
        some (match lastTextContent (es.take i) with
              | some c => c.take POSITION_HINT_LEN
              | none => hint) := by
  induction es with
  | nil =>
    intro hint i hi
    exact absurd hi (by simp)
  | cons e es ih =>
    intro hint i hi himg
    cases e with
    | text c =>
      cases i with
      | zero => simp [Element.isImage] at himg
      | succ i =>
        have hi' : i < es.length := by simpa using hi
        have := ih (c.take POSITION_HINT_LEN) i hi' (by simpa using himg)
        rw [List.take_succ_cons]
        rw [show countImages (Element.text c :: es.take i) = countImages (es.take i) by
          simp [countImages, List.countP_cons, Element.isImage]]
        rw [show (splitForAI hint (Element.text c :: es)).2 =
          (splitForAI (c.take POSITION_HINT_LEN) es).2 from rfl]
        rw [this]
        rcases hlt : lastTextContent (es.take i) with _ | d
        · simp [lastTextContent, hlt]
        · simp [lastTextContent, hlt]
    | image b m =>
      cases i with
      | zero =>
        rw [List.take_zero]
        rw [show countImages ([] : List Element) = 0 from rfl]
        rfl
      | succ i =>
        have hi' : i < es.length := by simpa using hi
        have := ih hint i hi' (by simpa using himg)
        rw [List.take_succ_cons]
        rw [show countImages (Element.image b m :: es.take i) =
            countImages (es.take i) + 1 by
          simp [countImages, List.countP_cons, Element.isImage]]
        rw [show (splitForAI hint (Element.image b m :: es)).2 =
          hint :: (splitForAI hint es).2 from rfl]
        rw [show lastTextContent (Element.image b m :: es.take i) =
          lastTextContent (es.take i) from rfl]
        simpa using this

/-- C8 -- in `process_with_ai`, an image element with at least one
preceding text element is assigned as position hint the first 80
characters of the content of the nearest preceding text element: the
hint recorded for the image at position `i` (the `countImages`-th
image so far) is `c.take 80` where `c` is the content of the last text
element before position `i`. -/
theorem positionHint_nearest (es : List Element) (i : Nat) (hi : i < es.length)
    (himg : (es.get ⟨i, hi⟩).isImage = true) (c : List Char)
    (hc : lastTextContent (es.take i) = some c) :
    ((splitForAI [] es).2).get? (countImages (es.take i)) =
      some (c.take POSITION_HINT_LEN) := by
  rw [splitForAI_hint_general es [] i hi himg, hc]

/-- Witness for C8 on `[text "hello paragraph", image]`: the image's
hint is the text's first 80 characters. -/
theorem positionHint_nearest_witness :
    (([.text ("hello paragraph".data), .image [] []] : List Element).get
        ⟨1, by decide⟩).isImage = true ∧
    lastTextContent (([.text ("hello paragraph".data), .image [] []] :
        List Element).take 1) = some ("hello paragraph".data) ∧
    ((splitForAI [] [.text ("hello paragraph".data), .image [] []]).2).get?
        (countImages (([.text ("hello paragraph".data), .image [] []] :
          List Element).take 1)) =
      some (("hello paragraph".data).take POSITION_HINT_LEN) :=
  ⟨by decide, by decide,
    positionHint_nearest [.text ("hello paragraph".data), .image [] []] 1
      (by decide) (by decide) ("hello paragraph".data) (by decide)⟩

/-- C10 -- in `process_with_ai`, an image element with no preceding
text element is assigned the empty string as position hint, because
`last_text_hint` starts empty and is only updated at text elements. -/
theorem positionHint_empty (es : List Element) (i : Nat) (hi : i < es.length)
    (himg : (es.get ⟨i, hi⟩).isImage = true)
    (hc : lastTextContent (es.take i) = none) :
    ((splitForAI [] es).2).get? (countImages (es.take i)) = some [] := by
  rw [splitForAI_hint_general es [] i hi himg, hc]

/-- Witness for C10 on a document whose first element is an image. -/
theorem positionHint_empty_witness :
    (([.image [] [], .text ("later".data)] : List Element).get
        ⟨0, by decide⟩).isImage = true ∧
    lastTextContent (([.image [] [], .text ("later".data)] :
        List Element).take 0) = none ∧
    ((splitForAI [] [.image [] [], .text ("later".data)]).2).get?
        (countImages (([.image [] [], .text ("later".data)] :
          List Element).take 0)) = some [] :=
  ⟨by decide, by decide,
    positionHint_empty [.image [] [], .text ("later".data)] 0 (by decide)
      (by decide) (by decide)⟩

/-! ## `parse_docx` error conditions (src/src/docx_parser.py, lines 198-204)

The filesystem and the docx container opener are the environment:
`pathExists` models `Path.exists()` and `validDocx` models whether
`Document(path)` opens the file without raising (python-docx raises
its invalid-package error otherwise, the spec's `InvalidFormat`). -/

structure FileSystem where
  pathExists : List Char → Bool
  validDocx : List Char → Bool

/-- The final path component (`PurePath.name`). -/
def pathName (p : List Char) : List Char :=
  (p.reverse.takeWhile (fun c => c != '/')).reverse

/-- `PurePath.suffix`: the extension of the final component, i.e.
`name[i:]` for `i` the position of the last dot when `0 < i <
len(name) - 1`, else the empty string. -/
def pySuffix (p : List Char) : List Char :=
  let name := pathName p
  let tailLen := (name.reverse.takeWhile (fun c => c != '.')).length
  if name.contains '.' ∧ 0 < name.length - 1 - tailLen ∧
      name.length - 1 - tailLen < name.length - 1 then
    name.drop (name.length - 1 - tailLen)
  else []

inductive ParseError where
  | notFound
  | invalidFormat
deriving DecidableEq

/-- The expected extension `".docx"`. -/
def dotDocx : List Char := ".docx".data

/-- The guard sequence at the top of `parse_docx`: missing path ->
`FileNotFoundError`; wrong (lowercased) suffix -> `ValueError`; then
`Document(...)` raises on an invalid container. -/
def checkDocx (fs : FileSystem) (p : List Char) : Except ParseError Unit :=
  if fs.pathExists p = false then .error .notFound
  else if lowerL (pySuffix p) ≠ dotDocx then .error .invalidFormat
  else if fs.validDocx p = false then .error .invalidFormat
  else .ok ()

/-- C9 -- `parse_docx` raises its not-found error exactly when the
path does not exist; when the path exists it raises its
invalid-format error exactly when the extension is not `.docx`
(case-insensitively) or the container does not open; and under the
precondition that the path exists and is a valid `.docx` container
neither error is raised. -/
theorem parseDocx_error_conditions (fs : FileSystem) (p : List Char) :
    (checkDocx fs p = .error .notFound ↔ fs.pathExists p = false) ∧
    (fs.pathExists p = true →
      (checkDocx fs p = .error .invalidFormat ↔
        (lowerL (pySuffix p) ≠ dotDocx ∨ fs.validDocx p = false))) ∧
    (fs.pathExists p = true → lowerL (pySuffix p) = dotDocx →
      fs.validDocx p = true → checkDocx fs p = .ok ()) := by
  refine ⟨?_, ?_, ?_⟩
  · constructor
    · intro h
      by_contra hex
      have hex' : fs.pathExists p = true := by
        revert hex
        cases fs.pathExists p <;> simp
      rw [checkDocx, if_neg (by rw [hex']; simp)] at h
      split at h
      · cases h
      · split at h
        · cases h
        · cases h
    · intro h
      rw [checkDocx, if_pos h]
  · intro hex
    constructor
    · intro h
      rw [checkDocx, if_neg (by rw [hex]; simp)] at h
      by_cases hsuf : lowerL (pySuffix p) ≠ dotDocx
      · exact Or.inl hsuf
      · rw [if_neg hsuf] at h
        split at h
        · exact Or.inr (by assumption)
        · cases h
    · intro h
      rw [checkDocx, if_neg (by rw [hex]; simp)]
      by_cases hsuf : lowerL (pySuffix p) ≠ dotDocx
      · rw [if_pos hsuf]
      · rcases h with h | h
        · exact absurd h hsuf
        · rw [if_neg hsuf, if_pos (by rw [h])]
  · intro hex hsuf hval
    rw [checkDocx, if_neg (by rw [hex]; simp), if_neg (by rw [hsuf]; simp),
      if_neg (by rw [hval]; simp)]

/-- Witness for C9: in an environment where "report.DOCX" exists and
opens as a valid container, `parse_docx` raises neither error. -/
theorem parseDocx_error_conditions_witness :
    (FileSystem.mk (fun _ => true) (fun _ => true)).pathExists ("report.DOCX".data) = true ∧
    lowerL (pySuffix ("report.DOCX".data)) = dotDocx ∧
    (FileSystem.mk (fun _ => true) (fun _ => true)).validDocx ("report.DOCX".data) = true ∧
    checkDocx (FileSystem.mk (fun _ => true) (fun _ => true)) ("report.DOCX".data) = .ok () :=
  ⟨rfl, by decide, rfl,
    (parseDocx_error_conditions (FileSystem.mk (fun _ => true) (fun _ => true))
      ("report.DOCX".data)).2.2 rfl (by decide) rfl⟩

end DocMD
